import Mathlib

/-!
Shallow embedding of `src/mpi_sum_sort.py` (an MPI sample sort plus a
distributed sum).  Machine floats are modelled exactly, over an arbitrary
linear order; a rank's numpy buffer is a Lean list; the MPI collectives
(Gather, bcast, Alltoall, Alltoallv) are modelled by their contracts: a
whole-group run is one Lean function from the list of per-rank buffers to
the list of per-rank results, in rank order.
-/

namespace MpiSumSort

set_option linter.unusedSectionVars false
set_option linter.unusedVariables false

variable {α : Type*} [LinearOrder α] [Inhabited α]

/-- `local_data.sort()` / `all_samples.sort()` / `recv_data.sort()`:
numpy's in-place ascending sort, modelled by a comparison sort. -/
def sortAsc (l : List α) : List α := l.insertionSort (· ≤ ·)

/-- `np.searchsorted(l, v, side='right')` on a sorted array: the least
index whose element is `> v` (i.e. the right insertion point). -/
def searchsortedRight (l : List α) (v : α) : Nat :=
  l.findIdx (fun x => decide (v < x))

/-- Number of elements `≤ v`; for a sorted list this coincides with
`searchsortedRight`. -/
def countLe (l : List α) (v : α) : Nat := l.countP (fun x => decide (x ≤ v))

/-- `np.linspace(0, stop, num, dtype=int)` for a natural `stop`: the `num`
evenly spaced points `k * stop / (num - 1)`, truncated to integers. -/
def linspaceInt (stop num : Nat) : List Nat :=
  (List.range num).map (fun k => k * stop / (num - 1))

/-- Line 43: `np.linspace(0, len(local_data)-1, num_samples+2, dtype=int)[1:-1]`
with `num_samples = P - 1`: the sample index positions. -/
def sampleIndices (n P : Nat) : List Nat :=
  ((linspaceInt (n - 1) (P + 1)).drop 1).dropLast

/-- Line 44: `local_samples = local_data[sample_indices]` (numpy fancy
indexing, a pure read producing a fresh array). -/
def sampler (l : List α) (P : Nat) : List α :=
  (sampleIndices l.length P).map (fun i => l.getD i default)

/-- The sampler step as a state transformer: fancy indexing does not write
to the buffer, so the buffer component is returned unchanged. -/
def samplerStep (l : List α) (P : Nat) : List α × List α := (l, sampler l P)

/-- `a[::k]`: every `k`-th element of `a`, starting at index 0. -/
def strided : List α → Nat → List α
  | [], _ => []
  | x :: xs, k => x :: strided (xs.drop (k - 1)) k
termination_by l _ => l.length
decreasing_by simp [List.length_drop]; omega

/-- Lines 55-56 (root only): sort the gathered samples and take
`all_samples[::size]` as the pivots. -/
def selectPivots (S : List α) (P : Nat) : List α := strided (sortAsc S) P

/-- Lines 60-66: the partition loop.  Each pivot closes a slice
`local_data[start_idx:end_idx]` with `end_idx` found by right binary
search; a final slice `local_data[start_idx:]` is appended. -/
def partitionLoop (l : List α) : List α → Nat → List (List α)
  | [], start => [l.drop start]
  | p :: ps, start =>
      (l.drop start).take (searchsortedRight l p - start) ::
        partitionLoop l ps (searchsortedRight l p)

/-- Lines 59-66: partition a (sorted) local buffer by the pivot array. -/
def partitions (l : List α) (pivots : List α) : List (List α) :=
  partitionLoop l pivots 0

/-- Modelled from the spec's words, for comparison with `partitions`
(tail of the bucket list, carrying the previous pivot `lo`): interior
bucket holds the elements in `(lo, p]`; the last bucket holds every
element above the last pivot. -/
def bucketsSpecAux (l : List α) (lo : α) : List α → List (List α)
  | [] => [l.filter (fun x => decide (lo < x))]
  | p :: ps =>
      l.filter (fun x => decide (lo < x) && decide (x ≤ p)) ::
        bucketsSpecAux l p ps

/-- Modelled from the spec's words: bucket 0 holds the elements
`≤ pivot[0]`; interior bucket `k` holds the elements in
`(pivot[k-1], pivot[k]]`; the last bucket holds the remainder. -/
def bucketsSpec (l : List α) : List α → List (List α)
  | [] => [l]
  | p :: ps => l.filter (fun x => decide (x ≤ p)) :: bucketsSpecAux l p ps

/-- Lines 90-102: per-rank chunk sizes, `chunk_size + 1` for the first
`N mod P` ranks and `chunk_size` for the rest. -/
def chunkSizes (N P : Nat) : List Nat :=
  (List.range P).map (fun i => if i < N % P then N / P + 1 else N / P)

/-- Cut a list into consecutive chunks of the given sizes. -/
def splitBySizes : List α → List Nat → List (List α)
  | _, [] => []
  | l, s :: ss => l.take s :: splitBySizes (l.drop s) ss

/-- Line 110: `Scatterv` of the global array into per-rank buffers. -/
def scatterv (l : List α) (P : Nat) : List (List α) :=
  splitBySizes l (chunkSizes l.length P)

/-- Lines 73-74: `np.insert(np.cumsum(counts), 0, 0)[:-1]` read at
position `k`: the exclusive prefix sum of the counts. -/
def sendDispls (counts : List Nat) (k : Nat) : Nat := (counts.take k).sum

/-- Lines 72-79: `Alltoallv`.  Destination rank `k` receives, from every
source rank in rank order, the slice of that source's concatenated send
buffer at displacement `send_displs[k]` of length `send_counts[k]`. -/
def alltoallvRecv (allParts : List (List (List α))) (k : Nat) : List α :=
  (allParts.map (fun row =>
    let counts := row.map List.length
    ((row.flatten).drop (sendDispls counts k)).take (counts.getD k 0))).flatten

/-- Step 1 of `parallel_sample_sort` on every rank: local ascending sort. -/
def sortedBufs (bufs : List (List α)) : List (List α) := bufs.map sortAsc

/-- Lines 42-50: every rank's samples, gathered at root in rank order. -/
def gatheredSamples (bufs : List (List α)) : List α :=
  ((sortedBufs bufs).map (fun l => sampler l bufs.length)).flatten

/-- Lines 53-57: pivots computed at root and broadcast (identical
everywhere). -/
def pivotsOf (bufs : List (List α)) : List α :=
  selectPivots (gatheredSamples bufs) bufs.length

/-- Lines 59-66 on every rank: the per-rank partition bucket lists. -/
def partsOf (bufs : List (List α)) : List (List (List α)) :=
  (sortedBufs bufs).map (fun l => partitions l (pivotsOf bufs))

/-- Line 68: `send_counts` on rank `i`. -/
def sendCountsOf (bufs : List (List α)) (i : Nat) : List Nat :=
  ((partsOf bufs).getD i []).map List.length

/-- Lines 69-70: `recv_counts` on rank `i` after the scalar `Alltoall`:
entry `j` is what rank `j` sent towards rank `i`. -/
def recvCountsOf (bufs : List (List α)) (i : Nat) : List Nat :=
  (List.range bufs.length).map (fun j => (sendCountsOf bufs j).getD i 0)

/-- Lines 72-79: `recv_data` on rank `k` after `Alltoallv`. -/
def recvDataOf (bufs : List (List α)) (k : Nat) : List α :=
  alltoallvRecv (partsOf bufs) k

/-- Lines 26-82: a whole-group run of `parallel_sample_sort`, returning
the per-rank `FinalSortedBuffer`s in rank order. -/
def parallelSampleSortAll (bufs : List (List α)) : List (List α) :=
  (List.range bufs.length).map (fun k => sortAsc (recvDataOf bufs k))

/-- The four collective operations issued by `parallel_sample_sort`. -/
inductive Collective
  | gather | bcast | alltoall | alltoallv
deriving DecidableEq

/-- `parallel_sample_sort` together with the trace of collective calls it
issues.  The function body is straight-line: `comm.Gather` (line 50),
`comm.bcast` (line 57), `comm.Alltoall` (line 70) and `comm.Alltoallv`
(line 78) are executed unconditionally, whatever the group size. -/
def parallelSampleSortTrace (bufs : List (List α)) :
    List (List α) × List Collective :=
  (parallelSampleSortAll bufs,
   [Collective.gather, Collective.bcast, Collective.alltoall,
    Collective.alltoallv])

/-- Lines 4-24: a whole-group run of `parallel_sum`, returning each
rank's return value (`None` away from root). -/
def parallelSumAll {β : Type*} [AddCommMonoid β]
    (bufs : List (List β)) : List (Option β) :=
  let localSums := bufs.map List.sum
  (List.range bufs.length).map
    (fun r => if r = 0 then some localSums.sum else none)

/-! ### Basic facts about the local sort -/

theorem sortAsc_sorted (l : List α) : List.Sorted (· ≤ ·) (sortAsc l) :=
  List.sorted_insertionSort _ l

theorem sortAsc_perm (l : List α) : (sortAsc l).Perm l :=
  List.perm_insertionSort _ l

theorem sortAsc_length (l : List α) : (sortAsc l).length = l.length :=
  (sortAsc_perm l).length_eq

theorem sortAsc_of_sorted {l : List α} (hl : List.Sorted (· ≤ ·) l) :
    sortAsc l = l :=
  hl.insertionSort_eq

/-! ### `countLe` and `searchsortedRight` on a sorted buffer -/

theorem countLe_cons_zero {a v : α} {t : List α}
    (hl : List.Sorted (· ≤ ·) (a :: t)) (hav : ¬ a ≤ v) :
    countLe (a :: t) v = 0 := by
  rcases List.sorted_cons.mp hl with ⟨ha, _⟩
  simp only [countLe, List.countP_eq_zero]
  intro x hx
  rcases List.mem_cons.mp hx with rfl | hx
  · simpa using hav
  · have : a ≤ x := ha x hx
    simp only [decide_eq_true_eq]
    intro hxv
    exact hav (le_trans this hxv)

theorem take_countLe {l : List α} (hl : List.Sorted (· ≤ ·) l) (v : α) :
    l.take (countLe l v) = l.filter (fun x => decide (x ≤ v)) := by
  induction l with
  | nil => rfl
  | cons a t ih =>
      rcases List.sorted_cons.mp hl with ⟨_, ht⟩
      by_cases hav : a ≤ v
      · have hc : countLe (a :: t) v = countLe t v + 1 := by
          simp [countLe, List.countP_cons, hav]
        rw [hc]
        simp [List.filter_cons, hav, ih ht]
      · rw [countLe_cons_zero hl hav]
        simp only [List.take_zero, List.filter_cons]
        have hda : ¬ (decide (a ≤ v) = true) := by simpa using hav
        rw [if_neg hda, eq_comm, List.filter_eq_nil_iff]
        intro x hx
        have hax : a ≤ x := (List.sorted_cons.mp hl).1 x hx
        simp only [decide_eq_true_eq]
        intro hxv
        exact hav (le_trans hax hxv)

theorem drop_countLe {l : List α} (hl : List.Sorted (· ≤ ·) l) (v : α) :
    l.drop (countLe l v) = l.filter (fun x => decide (v < x)) := by
  induction l with
  | nil => rfl
  | cons a t ih =>
      rcases List.sorted_cons.mp hl with ⟨ha, ht⟩
      by_cases hav : a ≤ v
      · have hc : countLe (a :: t) v = countLe t v + 1 := by
          simp [countLe, List.countP_cons, hav]
        rw [hc]
        have : ¬ (v < a) := not_lt.mpr hav
        simp [List.filter_cons, this, ih ht]
      · rw [countLe_cons_zero hl hav]
        have hva : v < a := not_le.mp hav
        simp only [List.drop_zero, List.filter_cons]
        rw [if_pos (by simpa using hva)]
        congr 1
        refine (List.filter_eq_self.mpr ?_).symm
        intro x hx
        simpa using lt_of_lt_of_le hva (ha x hx)

theorem searchsorted_eq_countLe {l : List α} (hl : List.Sorted (· ≤ ·) l)
    (v : α) : searchsortedRight l v = countLe l v := by
  induction l with
  | nil => rfl
  | cons a t ih =>
      rcases List.sorted_cons.mp hl with ⟨_, ht⟩
      by_cases hav : a ≤ v
      · have : ¬ (v < a) := not_lt.mpr hav
        simp only [searchsortedRight, List.findIdx_cons] at *
        simp only [this, decide_False, cond_false]
        rw [ih ht]
        simp [countLe, List.countP_cons, hav]
      · have hva : v < a := not_le.mp hav
        rw [countLe_cons_zero hl hav]
        simp [searchsortedRight, List.findIdx_cons, hva]

theorem countLe_mono (l : List α) {v w : α} (hvw : v ≤ w) :
    countLe l v ≤ countLe l w := by
  apply List.countP_mono_left
  intro x _ hx
  simp only [decide_eq_true_eq] at hx ⊢
  exact le_trans hx hvw

theorem countLe_le_length (l : List α) (v : α) : countLe l v ≤ l.length :=
  List.countP_le_length _

/-! ### Partition structure -/

theorem partitionLoop_length (l ps : List α) (start : Nat) :
    (partitionLoop l ps start).length = ps.length + 1 := by
  induction ps generalizing start with
  | nil => rfl
  | cons p ps ih => simp [partitionLoop, ih]

theorem partitions_length (l pivots : List α) :
    (partitions l pivots).length = pivots.length + 1 :=
  partitionLoop_length l pivots 0

theorem partitionLoop_flatten {l : List α} (hl : List.Sorted (· ≤ ·) l) :
    ∀ (ps : List α) (start : Nat), List.Sorted (· ≤ ·) ps →
      (∀ p ∈ ps, start ≤ searchsortedRight l p) →
      (partitionLoop l ps start).flatten = l.drop start := by
  intro ps
  induction ps with
  | nil => intro start _ _; simp [partitionLoop]
  | cons p ps ih =>
      intro start hps hstart
      rcases List.sorted_cons.mp hps with ⟨hp, hps'⟩
      have hse : start ≤ searchsortedRight l p :=
        hstart p (List.mem_cons_self p ps)
      have hrest : ∀ p' ∈ ps, searchsortedRight l p ≤ searchsortedRight l p' := by
        intro p' hp'
        rw [searchsorted_eq_countLe hl, searchsorted_eq_countLe hl]
        exact countLe_mono l (hp p' hp')
      simp only [partitionLoop, List.flatten_cons, ih (searchsortedRight l p) hps' hrest]
      have hdd : l.drop (searchsortedRight l p) =
          (l.drop start).drop (searchsortedRight l p - start) := by
        rw [List.drop_drop]
        congr 1
        omega
      rw [hdd, List.take_append_drop]

theorem partitions_flatten {l pivots : List α} (hl : List.Sorted (· ≤ ·) l)
    (hp : List.Sorted (· ≤ ·) pivots) :
    (partitions l pivots).flatten = l := by
  have := partitionLoop_flatten hl pivots 0 hp (fun p _ => Nat.zero_le _)
  simpa using this

theorem slice_countLe_eq_filter {l : List α} (hl : List.Sorted (· ≤ ·) l)
    {lo p : α} (hlp : lo ≤ p) :
    (l.drop (countLe l lo)).take (countLe l p - countLe l lo) =
      l.filter (fun x => decide (lo < x) && decide (x ≤ p)) := by
  have ht : l.drop (countLe l lo) = l.filter (fun x => decide (lo < x)) :=
    drop_countLe hl lo
  have hts : List.Sorted (· ≤ ·) (l.filter (fun x => decide (lo < x))) :=
    hl.filter _
  have htake : countLe (l.take (countLe l lo)) p = countLe l lo := by
    rw [take_countLe hl lo]
    have hall : ∀ x ∈ l.filter (fun x => decide (x ≤ lo)),
        decide (x ≤ p) = true := by
      intro x hx
      have := (List.mem_filter.mp hx).2
      simp only [decide_eq_true_eq] at this ⊢
      exact le_trans this hlp
    calc countLe (l.filter (fun x => decide (x ≤ lo))) p
        = (l.filter (fun x => decide (x ≤ lo))).length :=
          List.countP_eq_length.mpr hall
      _ = countLe l lo := (List.countP_eq_length_filter _ _).symm
  have hsplit : countLe l p =
      countLe (l.take (countLe l lo)) p + countLe (l.drop (countLe l lo)) p := by
    conv_lhs => rw [countLe, ← List.take_append_drop (countLe l lo) l,
      List.countP_append]
    rfl
  have hsub : countLe l p - countLe l lo =
      countLe (l.drop (countLe l lo)) p := by omega
  rw [hsub, ht, take_countLe hts p, List.filter_filter]
  exact List.filter_congr (fun x _ => by rw [Bool.and_comm])

theorem partitionLoop_eq_bucketsSpecAux {l : List α}
    (hl : List.Sorted (· ≤ ·) l) :
    ∀ (ps : List α) (lo : α), List.Chain (· ≤ ·) lo ps →
      partitionLoop l ps (countLe l lo) = bucketsSpecAux l lo ps := by
  intro ps
  induction ps with
  | nil =>
      intro lo _
      simp [partitionLoop, bucketsSpecAux, drop_countLe hl lo]
  | cons p ps ih =>
      intro lo hchain
      rcases List.chain_cons.mp hchain with ⟨hlp, hchain'⟩
      simp only [partitionLoop, bucketsSpecAux]
      refine congrArg₂ (· :: ·) ?_ ?_
      · rw [searchsorted_eq_countLe hl]
        exact slice_countLe_eq_filter hl hlp
      · rw [searchsorted_eq_countLe hl]
        exact ih p hchain'

theorem partitions_eq_bucketsSpec {l pivots : List α}
    (hl : List.Sorted (· ≤ ·) l) (hp : List.Sorted (· ≤ ·) pivots) :
    partitions l pivots = bucketsSpec l pivots := by
  cases pivots with
  | nil => simp [partitions, partitionLoop, bucketsSpec]
  | cons p ps =>
      have hchain : List.Chain (· ≤ ·) p ps := List.chain_iff_pairwise.mpr hp
      simp only [partitions, partitionLoop, bucketsSpec]
      refine congrArg₂ (· :: ·) ?_ ?_
      · rw [searchsorted_eq_countLe hl]
        simpa using take_countLe hl p
      · rw [searchsorted_eq_countLe hl]
        exact partitionLoop_eq_bucketsSpecAux hl ps p hchain

theorem bucketsSpecAux_length (l : List α) (lo : α) (ps : List α) :
    (bucketsSpecAux l lo ps).length = ps.length + 1 := by
  induction ps generalizing lo with
  | nil => rfl
  | cons p ps ih => simp [bucketsSpecAux, ih]

theorem bucketsSpec_length (l pivots : List α) :
    (bucketsSpec l pivots).length = pivots.length + 1 := by
  cases pivots with
  | nil => rfl
  | cons p ps => simp [bucketsSpec, bucketsSpecAux_length]

theorem bucketsSpecAux_upper {l : List α} :
    ∀ (ps : List α) (lo : α) (k : Nat) (x : α), k < ps.length →
      x ∈ (bucketsSpecAux l lo ps).getD k [] → x ≤ ps.getD k x := by
  intro ps
  induction ps with
  | nil => intro lo k x hk; simp at hk
  | cons p ps ih =>
      intro lo k x hk hx
      cases k with
      | zero =>
          simp only [bucketsSpecAux, List.getD_cons_zero] at hx
          have := (List.mem_filter.mp hx).2
          simp only [Bool.and_eq_true, decide_eq_true_eq] at this
          simpa using this.2
      | succ k =>
          simp only [bucketsSpecAux, List.getD_cons_succ] at hx
          simpa using ih p k x (by simpa using hk) hx

theorem bucketsSpecAux_lower {l : List α} :
    ∀ (ps : List α) (lo : α) (k : Nat) (x : α),
      x ∈ (bucketsSpecAux l lo ps).getD k [] → (lo :: ps).getD k x < x := by
  intro ps
  induction ps with
  | nil =>
      intro lo k x hx
      cases k with
      | zero =>
          simp only [bucketsSpecAux, List.getD_cons_zero] at hx
          have := (List.mem_filter.mp hx).2
          simpa using this
      | succ k => simp [bucketsSpecAux] at hx
  | cons p ps ih =>
      intro lo k x hx
      cases k with
      | zero =>
          simp only [bucketsSpecAux, List.getD_cons_zero] at hx
          have := (List.mem_filter.mp hx).2
          simp only [Bool.and_eq_true, decide_eq_true_eq] at this
          simpa using this.1
      | succ k =>
          simp only [bucketsSpecAux, List.getD_cons_succ] at hx
          simpa using ih p k x hx

theorem partitions_upper {l pivots : List α} (hl : List.Sorted (· ≤ ·) l)
    (hp : List.Sorted (· ≤ ·) pivots) {k : Nat} (hk : k < pivots.length)
    {x : α} (hx : x ∈ (partitions l pivots).getD k []) :
    x ≤ pivots.getD k x := by
  rw [partitions_eq_bucketsSpec hl hp] at hx
  cases pivots with
  | nil => simp at hk
  | cons p ps =>
      cases k with
      | zero =>
          simp only [bucketsSpec, List.getD_cons_zero] at hx
          have := (List.mem_filter.mp hx).2
          simpa using this
      | succ k =>
          simp only [bucketsSpec, List.getD_cons_succ] at hx
          simpa using bucketsSpecAux_upper ps p k x (by simpa using hk) hx

theorem partitions_lower {l pivots : List α} (hl : List.Sorted (· ≤ ·) l)
    (hp : List.Sorted (· ≤ ·) pivots) {k : Nat} (hk0 : 0 < k)
    {x : α} (hx : x ∈ (partitions l pivots).getD k []) :
    pivots.getD (k - 1) x < x := by
  rw [partitions_eq_bucketsSpec hl hp] at hx
  cases pivots with
  | nil =>
      cases k with
      | zero => omega
      | succ k => simp [bucketsSpec] at hx
  | cons p ps =>
      cases k with
      | zero => omega
      | succ k =>
          simp only [bucketsSpec, List.getD_cons_succ] at hx
          simpa using bucketsSpecAux_lower ps p k x hx

/-! ### Sampler -/

theorem linspaceInt_length (stop num : Nat) :
    (linspaceInt stop num).length = num := by
  simp [linspaceInt]

theorem sampleIndices_length (n P : Nat) :
    (sampleIndices n P).length = P - 1 := by
  simp only [sampleIndices, List.length_dropLast, List.length_drop,
    linspaceInt_length]
  omega

theorem sampler_length (l : List α) (P : Nat) :
    (sampler l P).length = P - 1 := by
  simp [sampler, sampleIndices_length]

theorem sampleIndices_eq (n P : Nat) :
    sampleIndices n P =
      (List.range (P - 1)).map (fun k => (k + 1) * (n - 1) / P) := by
  apply List.ext_getElem
  · simp [sampleIndices_length]
  · intro i h1 h2
    simp only [sampleIndices, linspaceInt, List.getElem_dropLast,
      List.getElem_drop, List.getElem_map, List.getElem_range]
    have hnum : P + 1 - 1 = P := by omega
    rw [hnum, Nat.add_comm 1 i]

theorem sampleIndices_getD {n P k : Nat} (hk : k < P - 1) :
    (sampleIndices n P).getD k 0 = (k + 1) * (n - 1) / P := by
  rw [sampleIndices_eq]
  rw [List.getD_eq_getElem _ _ (by simpa using hk)]
  simp

theorem mem_sampleIndices {n P i : Nat} :
    i ∈ sampleIndices n P ↔ ∃ k, k < P - 1 ∧ (k + 1) * (n - 1) / P = i := by
  rw [sampleIndices_eq]
  simp [List.mem_map, List.mem_range]

theorem sampleIndices_lt {n P : Nat} (hn : 1 ≤ n) :
    ∀ i ∈ sampleIndices n P, i < n := by
  intro i hi
  rcases mem_sampleIndices.mp hi with ⟨k, hk, rfl⟩
  have hP : 0 < P := by omega
  have h1 : (k + 1) * (n - 1) ≤ P * (n - 1) :=
    Nat.mul_le_mul_right _ (by omega)
  have h2 : (k + 1) * (n - 1) / P ≤ P * (n - 1) / P :=
    Nat.div_le_div_right h1
  rw [Nat.mul_div_cancel_left _ hP] at h2
  omega

/-! ### Pivot selection -/

theorem strided_sublist : ∀ (l : List α) (k : Nat), (strided l k).Sublist l
  | [], _ => by simp [strided]
  | x :: xs, k => by
      rw [strided]
      exact List.Sublist.cons₂ x
        ((strided_sublist (xs.drop (k - 1)) k).trans (List.drop_sublist _ _))
termination_by l _ => l.length
decreasing_by simp [List.length_drop]; omega

theorem strided_getElem? {k : Nat} (hk : 1 ≤ k) :
    ∀ (i : Nat) (l : List α), (strided l k)[i]? = l[i * k]? := by
  intro i
  induction i with
  | zero =>
      intro l
      cases l with
      | nil => simp [strided]
      | cons x xs => simp [strided]
  | succ i ih =>
      intro l
      cases l with
      | nil => simp [strided]
      | cons x xs =>
          rw [strided]
          simp only [List.getElem?_cons_succ]
          rw [ih (xs.drop (k - 1)), List.getElem?_drop]
          have hidx : (i + 1) * k = (k - 1) + i * k + 1 := by
            have hm : (i + 1) * k = i * k + k := by
              rw [Nat.add_mul, Nat.one_mul]
            omega
          rw [hidx, List.getElem?_cons_succ]

theorem strided_length {k : Nat} (hk : 1 ≤ k) :
    ∀ l : List α, (strided l k).length = (l.length + k - 1) / k
  | [] => by
      rw [strided]
      simp only [List.length_nil, Nat.zero_add]
      rw [Nat.div_eq_of_lt (by omega)]
  | x :: xs => by
      rw [strided]
      simp only [List.length_cons]
      rw [strided_length hk (xs.drop (k - 1))]
      simp only [List.length_drop]
      rcases Nat.lt_or_ge xs.length (k - 1) with h | h
      · have h1 : xs.length - (k - 1) = 0 := by omega
        rw [h1]
        have h2 : (0 + k - 1) / k = 0 := Nat.div_eq_of_lt (by omega)
        rw [h2]
        have h3 : xs.length + 1 + k - 1 = xs.length + k := by omega
        rw [h3]
        symm
        exact Nat.div_eq_of_lt_le (by omega) (by omega)
      · have h1 : xs.length - (k - 1) + k - 1 = xs.length := by omega
        rw [h1]
        have h3 : xs.length + 1 + k - 1 = xs.length + k := by omega
        rw [h3, Nat.add_div_right _ (by omega)]
termination_by l => l.length
decreasing_by simp [List.length_drop]; omega

theorem selectPivots_length {S : List α} {P : Nat} (hP : 1 ≤ P)
    (hlen : S.length = P * (P - 1)) :
    (selectPivots S P).length = P - 1 := by
  rw [selectPivots, strided_length hP, sortAsc_length, hlen]
  have h1 : P * (P - 1) + P = P * P := by
    obtain ⟨Q, rfl⟩ := Nat.exists_eq_add_of_le hP
    have hq : 1 + Q - 1 = Q := by omega
    rw [hq]
    ring
  have h2 : (P - 1) * P = P * (P - 1) := Nat.mul_comm _ _
  have h3 : (P - 1 + 1) * P = P * P := by
    have hp : P - 1 + 1 = P := by omega
    rw [hp]
  exact Nat.div_eq_of_lt_le (by omega) (by omega)

theorem selectPivots_sorted (S : List α) (P : Nat) :
    List.Sorted (· ≤ ·) (selectPivots S P) :=
  List.Pairwise.sublist (strided_sublist (sortAsc S) P) (sortAsc_sorted S)

theorem selectPivots_getElem? (S : List α) {P : Nat} (hP : 1 ≤ P) (k : Nat) :
    (selectPivots S P)[k]? = (sortAsc S)[k * P]? :=
  strided_getElem? hP k (sortAsc S)

/-! ### The variable all-to-all exchange -/

theorem segment_flatten (r : List (List α)) :
    ∀ k, ((r.flatten).drop (sendDispls (r.map List.length) k)).take
        ((r.map List.length).getD k 0) = r.getD k [] := by
  induction r with
  | nil => intro k; simp [sendDispls]
  | cons a t ih =>
      intro k
      cases k with
      | zero =>
          simp only [sendDispls, List.take_zero, List.sum_nil, List.drop_zero,
            List.map_cons, List.getD_cons_zero, List.flatten_cons]
          exact List.take_left _ _
      | succ k =>
          simp only [sendDispls, List.map_cons, List.take_succ_cons,
            List.sum_cons, List.getD_cons_succ, List.flatten_cons]
          rw [← List.drop_drop, List.drop_left]
          exact ih k

theorem alltoallvRecv_eq (rows : List (List (List α))) (k : Nat) :
    alltoallvRecv rows k = (rows.map (fun r => r.getD k [])).flatten := by
  unfold alltoallvRecv
  congr 1
  apply List.map_congr_left
  intro r _
  exact segment_flatten r k

/-! ### Permutation bookkeeping for concatenations -/

theorem flatten_map_perm {β : Type*} (xs : List β) (f g : β → List α)
    (h : ∀ b ∈ xs, (f b).Perm (g b)) :
    ((xs.map f).flatten).Perm ((xs.map g).flatten) := by
  induction xs with
  | nil => simp
  | cons b t ih =>
      simp only [List.map_cons, List.flatten_cons]
      exact (h b (List.mem_cons_self b t)).append
        (ih (fun b' hb' => h b' (List.mem_cons_of_mem _ hb')))

theorem flatten_map_append_perm {β : Type*} (xs : List β) (f g : β → List α) :
    ((xs.map (fun b => f b ++ g b)).flatten).Perm
      ((xs.map f).flatten ++ (xs.map g).flatten) := by
  induction xs with
  | nil => simp
  | cons b t ih =>
      simp only [List.map_cons, List.flatten_cons]
      have h1 : (f b ++ g b) ++ (t.map (fun x => f x ++ g x)).flatten |>.Perm
          ((f b ++ g b) ++ ((t.map f).flatten ++ (t.map g).flatten)) :=
        List.Perm.append_left _ ih
      have h2 : g b ++ ((t.map f).flatten ++ (t.map g).flatten) |>.Perm
          ((t.map f).flatten ++ (g b ++ (t.map g).flatten)) := by
        rw [← List.append_assoc, ← List.append_assoc]
        exact List.Perm.append_right _ List.perm_append_comm
      refine h1.trans ?_
      rw [List.append_assoc]
      refine (List.Perm.append_left (f b) h2).trans ?_
      rw [← List.append_assoc]

theorem map_getD_range (r : List (List α)) :
    (List.range r.length).map (fun k => r.getD k []) = r := by
  apply List.ext_getElem
  · simp
  · intro i h1 h2
    simp only [List.getElem_map, List.getElem_range]
    exact List.getD_eq_getElem r [] h2

theorem flatten_columns (rows : List (List (List α))) (P : Nat)
    (h : ∀ r ∈ rows, r.length = P) :
    (((List.range P).map
        (fun k => (rows.map (fun r => r.getD k [])).flatten)).flatten).Perm
      ((rows.map List.flatten).flatten) := by
  induction rows with
  | nil => simp [List.perm_nil, List.flatten_eq_nil_iff]
  | cons r t ih =>
      have hr : r.length = P := h r (List.mem_cons_self _ _)
      have ht : ∀ r' ∈ t, r'.length = P :=
        fun r' hr' => h r' (List.mem_cons_of_mem _ hr')
      simp only [List.map_cons, List.flatten_cons]
      have hsplit := flatten_map_append_perm (List.range P)
        (fun k => r.getD k [])
        (fun k => (t.map (fun r' => r'.getD k [])).flatten)
      have hfst : ((List.range P).map (fun k => r.getD k [])).flatten
          = r.flatten := by
        rw [← hr, map_getD_range]
      refine hsplit.trans ?_
      rw [hfst]
      exact List.Perm.append_left _ (ih ht)

/-! ### Scatterv -/

theorem splitBySizes_length (ss : List Nat) :
    ∀ l : List α, (splitBySizes l ss).length = ss.length := by
  induction ss with
  | nil => intro l; rfl
  | cons s ss ih => intro l; simp [splitBySizes, ih]

theorem splitBySizes_flatten (ss : List Nat) :
    ∀ l : List α, (splitBySizes l ss).flatten = l.take ss.sum := by
  induction ss with
  | nil => intro l; simp [splitBySizes]
  | cons s ss ih =>
      intro l
      simp only [splitBySizes, List.flatten_cons, List.sum_cons, ih,
        List.take_add]

theorem sum_ite_range (n m a : Nat) :
    ((List.range n).map (fun i => if i < m then a + 1 else a)).sum
      = n * a + min m n := by
  induction n with
  | zero => simp
  | succ n ih =>
      rw [List.range_succ, List.map_append, List.sum_append, ih]
      simp only [List.map_cons, List.map_nil, List.sum_cons, List.sum_nil]
      have hmul : (n + 1) * a = n * a + a := by
        rw [Nat.add_mul, Nat.one_mul]
      by_cases hnm : n < m
      · rw [if_pos hnm]; omega
      · rw [if_neg hnm]; omega

theorem chunkSizes_sum {N P : Nat} (hP : 1 ≤ P) : (chunkSizes N P).sum = N := by
  rw [chunkSizes, sum_ite_range]
  have hmod : N % P < P := Nat.mod_lt _ (by omega)
  have hdm := Nat.div_add_mod N P
  omega

theorem chunkSizes_length (N P : Nat) : (chunkSizes N P).length = P := by
  simp [chunkSizes]

theorem scatterv_length (l : List α) (P : Nat) :
    (scatterv l P).length = P := by
  rw [scatterv, splitBySizes_length, chunkSizes_length]

theorem scatterv_flatten (l : List α) {P : Nat} (hP : 1 ≤ P) :
    (scatterv l P).flatten = l := by
  rw [scatterv, splitBySizes_flatten, chunkSizes_sum hP, List.take_length]

/-! ### Sizes along the pipeline -/

theorem sortedBufs_length (bufs : List (List α)) :
    (sortedBufs bufs).length = bufs.length := by
  simp [sortedBufs]

theorem gatheredSamples_length (bufs : List (List α)) :
    (gatheredSamples bufs).length = bufs.length * (bufs.length - 1) := by
  rw [gatheredSamples, List.length_flatten, List.map_map]
  have h : ((sortedBufs bufs).map (List.length ∘ fun l => sampler l bufs.length))
      = (sortedBufs bufs).map (fun _ => bufs.length - 1) :=
    List.map_congr_left (fun l _ => sampler_length l bufs.length)
  rw [h]
  rw [show (fun _ : List α => bufs.length - 1)
        = Function.const (List α) (bufs.length - 1) from rfl]
  rw [List.map_const, List.sum_replicate, smul_eq_mul, sortedBufs_length]

theorem pivotsOf_length (bufs : List (List α)) (h : 1 ≤ bufs.length) :
    (pivotsOf bufs).length = bufs.length - 1 :=
  selectPivots_length h (gatheredSamples_length bufs)

theorem pivotsOf_sorted (bufs : List (List α)) :
    List.Sorted (· ≤ ·) (pivotsOf bufs) :=
  selectPivots_sorted _ _

theorem partsOf_row_length (bufs : List (List α)) (h : 1 ≤ bufs.length) :
    ∀ row ∈ partsOf bufs, row.length = bufs.length := by
  intro row hrow
  rcases List.mem_map.mp hrow with ⟨l, _, rfl⟩
  rw [partitions_length, pivotsOf_length bufs h]
  omega

/-! ### Global correctness of the whole-group run -/

theorem partsOf_row_length' (bufs : List (List α)) :
    ∀ row ∈ partsOf bufs, row.length = bufs.length := by
  intro row hrow
  have hpos : 1 ≤ bufs.length := by
    by_contra hc
    have hnil : bufs = [] := List.length_eq_zero.mp (by omega)
    subst hnil
    simp [partsOf, sortedBufs] at hrow
  exact partsOf_row_length bufs hpos row hrow

theorem parallelSampleSort_flatten_perm (bufs : List (List α)) :
    ((parallelSampleSortAll bufs).flatten).Perm (bufs.flatten) := by
  have hA : ((parallelSampleSortAll bufs).flatten).Perm
      (((List.range bufs.length).map (fun k => recvDataOf bufs k)).flatten) := by
    rw [parallelSampleSortAll]
    exact flatten_map_perm _ _ _ (fun k _ => sortAsc_perm _)
  have hB : ((List.range bufs.length).map (fun k => recvDataOf bufs k))
      = (List.range bufs.length).map
          (fun k => ((partsOf bufs).map (fun r => r.getD k [])).flatten) :=
    List.map_congr_left (fun k _ => alltoallvRecv_eq _ k)
  have hC := flatten_columns (partsOf bufs) bufs.length (partsOf_row_length' bufs)
  have hD : (partsOf bufs).map List.flatten = sortedBufs bufs := by
    rw [partsOf, List.map_map]
    have h1 : ∀ l ∈ sortedBufs bufs,
        (List.flatten ∘ fun l => partitions l (pivotsOf bufs)) l = l := by
      intro l hl
      rcases List.mem_map.mp hl with ⟨b, _, rfl⟩
      exact partitions_flatten (sortAsc_sorted b) (pivotsOf_sorted bufs)
    rw [List.map_congr_left h1, List.map_id']
  have hE : ((sortedBufs bufs).flatten).Perm (bufs.flatten) := by
    rw [sortedBufs]
    have h2 := flatten_map_perm bufs sortAsc (fun b => b) (fun b _ => sortAsc_perm b)
    simpa using h2
  refine hA.trans ?_
  rw [hB]
  refine hC.trans ?_
  rw [hD]
  exact hE

theorem recv_cross_bound (bufs : List (List α)) {i j : Nat}
    (hij : i < j) (hj : j < bufs.length)
    {x y : α} (hx : x ∈ recvDataOf bufs i) (hy : y ∈ recvDataOf bufs j) :
    x ≤ y := by
  have hP1 : 1 ≤ bufs.length := by omega
  have hplen : (pivotsOf bufs).length = bufs.length - 1 :=
    pivotsOf_length bufs hP1
  rw [recvDataOf, alltoallvRecv_eq] at hx hy
  rcases List.mem_flatten.mp hx with ⟨px, hpx, hxpx⟩
  rcases List.mem_map.mp hpx with ⟨rowx, hrowx, rfl⟩
  rcases List.mem_map.mp hrowx with ⟨lx, hlx, rfl⟩
  rcases List.mem_map.mp hlx with ⟨bx, _, rfl⟩
  rcases List.mem_flatten.mp hy with ⟨py, hpy, hypy⟩
  rcases List.mem_map.mp hpy with ⟨rowy, hrowy, rfl⟩
  rcases List.mem_map.mp hrowy with ⟨ly, hly, rfl⟩
  rcases List.mem_map.mp hly with ⟨b2, _, rfl⟩
  have hi' : i < (pivotsOf bufs).length := by omega
  have hj' : j - 1 < (pivotsOf bufs).length := by omega
  have hxu : x ≤ (pivotsOf bufs).getD i x :=
    partitions_upper (sortAsc_sorted bx) (pivotsOf_sorted bufs) hi' hxpx
  have hyl : (pivotsOf bufs).getD (j - 1) y < y :=
    partitions_lower (sortAsc_sorted b2) (pivotsOf_sorted bufs) (by omega) hypy
  rw [List.getD_eq_getElem _ _ hi'] at hxu
  rw [List.getD_eq_getElem _ _ hj'] at hyl
  have hpp : (pivotsOf bufs)[i] ≤ (pivotsOf bufs)[j - 1] := by
    rcases Nat.lt_or_eq_of_le (show i ≤ j - 1 by omega) with hlt | heq
    · exact List.pairwise_iff_getElem.mp (pivotsOf_sorted bufs) i (j - 1) hi' hj' hlt
    · exact le_of_eq (by congr 1)
  exact le_trans hxu (le_trans hpp (le_of_lt hyl))

theorem parallelSampleSort_flatten_sorted (bufs : List (List α)) :
    List.Sorted (· ≤ ·) ((parallelSampleSortAll bufs).flatten) := by
  rw [parallelSampleSortAll]
  refine List.pairwise_flatten.mpr ⟨?_, ?_⟩
  · intro l hl
    rcases List.mem_map.mp hl with ⟨k, _, rfl⟩
    exact sortAsc_sorted _
  · rw [List.pairwise_map]
    refine List.Pairwise.imp_of_mem ?_ (List.pairwise_lt_range bufs.length)
    intro i j hi hj hij x hx y hy
    have hx' : x ∈ recvDataOf bufs i := ((sortAsc_perm _).mem_iff).mp hx
    have hy' : y ∈ recvDataOf bufs j := ((sortAsc_perm _).mem_iff).mp hy
    exact recv_cross_bound bufs hij (List.mem_range.mp hj) hx' hy'

theorem getD_map_length (r : List (List α)) {i : Nat} (h : i < r.length) :
    (r.map List.length).getD i 0 = (r.getD i []).length := by
  rw [List.getD_eq_getElem _ _ (by simpa using h), List.getElem_map,
    List.getD_eq_getElem _ _ h]

theorem parallelSampleSortAll_singleton (l : List α) :
    parallelSampleSortAll [l] = [sortAsc l] := by
  have hsamp : sampler (sortAsc l) 1 = [] := by
    rw [sampler, sampleIndices_eq]
    rfl
  have hgs : gatheredSamples [l] = [] := by
    rw [gatheredSamples]
    simp [sortedBufs, hsamp]
  have hpiv : pivotsOf [l] = [] := by
    rw [pivotsOf, hgs, selectPivots]
    rw [show sortAsc ([] : List α) = [] from rfl]
    rw [strided]
  have hrecv : recvDataOf [l] 0 = sortAsc l := by
    rw [recvDataOf, alltoallvRecv_eq, partsOf, hpiv]
    simp [sortedBufs, partitions, partitionLoop]
  rw [parallelSampleSortAll]
  rw [show ([l] : List (List α)).length = 1 from rfl]
  rw [show List.range 1 = [0] from rfl]
  simp only [List.map_cons, List.map_nil]
  rw [hrecv, sortAsc_of_sorted (sortAsc_sorted l)]

/-! ### Claim theorems -/

/-- C1: for every input array of N values and every worker count P in
[1, N], concatenating the FinalSortedBuffers returned by
`parallel_sample_sort` across ranks 0..P-1 in rank order yields a
permutation of the input that is sorted ascending. -/
theorem C1_result_perm_sorted (l : List α) (P : Nat) (h1 : 1 ≤ P)
    (h2 : P ≤ l.length) :
    ((parallelSampleSortAll (scatterv l P)).flatten).Perm l ∧
      List.Sorted (· ≤ ·) ((parallelSampleSortAll (scatterv l P)).flatten) := by
  refine ⟨?_, parallelSampleSort_flatten_sorted (scatterv l P)⟩
  have h := parallelSampleSort_flatten_perm (scatterv l P)
  rwa [scatterv_flatten l h1] at h

theorem C1_result_perm_sorted_witness :
    (1 ≤ 2 ∧ 2 ≤ ([3, 1, 2] : List Int).length) ∧
      (((parallelSampleSortAll (scatterv ([3, 1, 2] : List Int) 2)).flatten).Perm
          [3, 1, 2] ∧
        List.Sorted (· ≤ ·)
          ((parallelSampleSortAll (scatterv ([3, 1, 2] : List Int) 2)).flatten)) :=
  ⟨⟨by decide, by decide⟩, C1_result_perm_sorted [3, 1, 2] 2 (by decide) (by decide)⟩

/-- C2: on a sorted buffer and a non-decreasing pivot array of P-1 values
the partitioner yields P contiguous buckets that coincide with the spec's
description (bucket 0 = elements ≤ pivot 0; interior bucket k = elements
in (pivot (k-1), pivot k]; last bucket = the remainder) and whose
concatenation is exactly the input buffer, with no loss or duplication. -/
theorem C2_partitioner (l pivots : List α) (hl : List.Sorted (· ≤ ·) l)
    (hp : List.Sorted (· ≤ ·) pivots) :
    partitions l pivots = bucketsSpec l pivots ∧
      (partitions l pivots).flatten = l ∧
      (partitions l pivots).length = pivots.length + 1 :=
  ⟨partitions_eq_bucketsSpec hl hp, partitions_flatten hl hp,
   partitions_length l pivots⟩

theorem C2_partitioner_witness :
    (List.Sorted (· ≤ ·) ([1, 2, 2, 3, 5] : List Int) ∧
        List.Sorted (· ≤ ·) ([2, 2, 4] : List Int)) ∧
      (partitions ([1, 2, 2, 3, 5] : List Int) [2, 2, 4]
          = bucketsSpec ([1, 2, 2, 3, 5] : List Int) [2, 2, 4] ∧
        (partitions ([1, 2, 2, 3, 5] : List Int) [2, 2, 4]).flatten
          = [1, 2, 2, 3, 5] ∧
        (partitions ([1, 2, 2, 3, 5] : List Int) [2, 2, 4]).length = 3 + 1) :=
  ⟨⟨by decide, by decide⟩,
   C2_partitioner [1, 2, 2, 3, 5] [2, 2, 4] (by decide) (by decide)⟩

/-- C3: given a gathered global sample set of size P·(P-1) the pivot
selector sorts it ascending and takes every P-th element starting at
index 0, yielding exactly P-1 non-decreasing pivots. -/
theorem C3_pivot_selector (S : List α) (P : Nat) (hP : 1 ≤ P)
    (hlen : S.length = P * (P - 1)) :
    (selectPivots S P).length = P - 1 ∧
      List.Sorted (· ≤ ·) (selectPivots S P) ∧
      ∀ k : Nat, (selectPivots S P)[k]? = (sortAsc S)[k * P]? :=
  ⟨selectPivots_length hP hlen, selectPivots_sorted S P,
   fun k => selectPivots_getElem? S hP k⟩

theorem C3_pivot_selector_witness :
    (1 ≤ 3 ∧ ([9, 1, 8, 2, 7, 3] : List Int).length = 3 * (3 - 1)) ∧
      ((selectPivots ([9, 1, 8, 2, 7, 3] : List Int) 3).length = 3 - 1 ∧
        List.Sorted (· ≤ ·) (selectPivots ([9, 1, 8, 2, 7, 3] : List Int) 3) ∧
        ∀ k : Nat, (selectPivots ([9, 1, 8, 2, 7, 3] : List Int) 3)[k]?
          = (sortAsc ([9, 1, 8, 2, 7, 3] : List Int))[k * 3]?) :=
  ⟨⟨by decide, by decide⟩,
   C3_pivot_selector [9, 1, 8, 2, 7, 3] 3 (by decide) (by decide)⟩

/-- C4 counterexample: on the buffer [5] of length 1 < 3 = P-1 (P = 4) the
sampler does not fail: it returns the three-element sample set [5, 5, 5],
contradicting the claim that it fails with InsufficientDataError rather
than returning a sample set. -/
theorem C4_counterexample :
    ([(5 : Int)].length < 4 - 1) ∧ sampler ([5] : List Int) 4 = [5, 5, 5] := by
  constructor
  · decide
  · decide

/-- C4 (amended): for every local buffer of length n with 1 ≤ n < P-1 the
sampler does not fail; it returns a sample set of exactly P-1 values, each
an element of the buffer. -/
theorem C4_amended_sampler_total (l : List α) (P : Nat) (h1 : 1 ≤ l.length)
    (h2 : l.length < P - 1) :
    (sampler l P).length = P - 1 ∧ ∀ x ∈ sampler l P, x ∈ l := by
  refine ⟨sampler_length l P, ?_⟩
  intro x hx
  rcases List.mem_map.mp hx with ⟨i, hi, rfl⟩
  have hlt : i < l.length := sampleIndices_lt h1 i hi
  rw [List.getD_eq_getElem _ _ hlt]
  exact List.getElem_mem hlt

theorem C4_amended_sampler_total_witness :
    (1 ≤ ([(5 : Int)] : List Int).length ∧ ([(5 : Int)] : List Int).length < 4 - 1) ∧
      ((sampler ([5] : List Int) 4).length = 4 - 1 ∧
        ∀ x ∈ sampler ([5] : List Int) 4, x ∈ ([5] : List Int)) :=
  ⟨⟨by decide, by decide⟩,
   C4_amended_sampler_total [5] 4 (by decide) (by decide)⟩

/-- C5 counterexample: with P = 3 and the sorted buffer [10, 20] of length
n = 2 ≥ P-1 the sampler's index positions are [0, 0]: the boundary
position 0 is sampled (twice), contradicting the claim that no sample sits
at position 0 or n-1 whenever n ≥ P-1. -/
theorem C5_counterexample :
    (2 ≤ 3 ∧ 3 - 1 ≤ ([10, 20] : List Int).length ∧
        List.Sorted (· ≤ ·) ([10, 20] : List Int)) ∧
      sampleIndices ([10, 20] : List Int).length 3 = [0, 0] ∧
      sampler ([10, 20] : List Int) 3 = [10, 10] := by
  exact ⟨⟨by decide, by decide, by decide⟩, by decide, by decide⟩

/-- C5 (amended): for every sorted buffer of length n ≥ P+1 (with P ≥ 2)
the sampler selects exactly P-1 samples at the evenly spaced positions
(k+1)·(n-1)/P, none of which is the boundary position 0 or n-1, and the
buffer is not mutated by sampling. -/
theorem C5_amended_interior_samples (l : List α) (P : Nat) (hP : 2 ≤ P)
    (hn : P + 1 ≤ l.length) :
    (sampler l P).length = P - 1 ∧
      (∀ k, k < P - 1 →
        (sampleIndices l.length P).getD k 0 = (k + 1) * (l.length - 1) / P) ∧
      (∀ i ∈ sampleIndices l.length P, 0 < i ∧ i < l.length - 1) ∧
      (samplerStep l P).1 = l := by
  refine ⟨sampler_length l P, fun k hk => sampleIndices_getD hk, ?_, rfl⟩
  intro i hi
  rcases mem_sampleIndices.mp hi with ⟨k, hk, rfl⟩
  have hP0 : 0 < P := by omega
  have hn1 : 0 < l.length - 1 := by omega
  constructor
  · have h1 : 1 * P ≤ (k + 1) * (l.length - 1) :=
      Nat.mul_le_mul (by omega) (by omega)
    have := (Nat.le_div_iff_mul_le hP0).mpr h1
    omega
  · rw [Nat.div_lt_iff_lt_mul hP0]
    have h1 : (k + 1) * (l.length - 1) < P * (l.length - 1) :=
      (Nat.mul_lt_mul_right hn1).mpr (by omega)
    have h2 : (l.length - 1) * P = P * (l.length - 1) := Nat.mul_comm _ _
    omega

theorem C5_amended_interior_samples_witness :
    (2 ≤ 3 ∧ 3 + 1 ≤ ([1, 2, 3, 4, 5] : List Int).length) ∧
      ((sampler ([1, 2, 3, 4, 5] : List Int) 3).length = 3 - 1 ∧
        (∀ k, k < 3 - 1 →
          (sampleIndices ([1, 2, 3, 4, 5] : List Int).length 3).getD k 0
            = (k + 1) * (([1, 2, 3, 4, 5] : List Int).length - 1) / 3) ∧
        (∀ i ∈ sampleIndices ([1, 2, 3, 4, 5] : List Int).length 3,
          0 < i ∧ i < ([1, 2, 3, 4, 5] : List Int).length - 1) ∧
        (samplerStep ([1, 2, 3, 4, 5] : List Int) 3).1 = [1, 2, 3, 4, 5]) :=
  ⟨⟨by decide, by decide⟩,
   C5_amended_interior_samples [1, 2, 3, 4, 5] 3 (by decide) (by decide)⟩

/-- C6: after the scalar all-to-all of bucket sizes, the receive-count
matrix is the transpose of the send-count matrix: entry j of rank i's
`recv_counts` equals entry i of rank j's `send_counts`, which in turn is
the length of the bucket that rank j computed for destination i. -/
theorem C6_counts_transpose (bufs : List (List α)) (i j : Nat)
    (hi : i < bufs.length) (hj : j < bufs.length) :
    (recvCountsOf bufs i).getD j 0 = (sendCountsOf bufs j).getD i 0 ∧
      (sendCountsOf bufs j).getD i 0
        = (((partsOf bufs).getD j []).getD i []).length := by
  constructor
  · rw [recvCountsOf, List.getD_eq_getElem _ _ (by simpa using hj)]
    simp
  · rw [sendCountsOf]
    have hl : (partsOf bufs).length = bufs.length := by
      simp [partsOf, sortedBufs]
    have hrow : ((partsOf bufs).getD j []).length = bufs.length := by
      rw [List.getD_eq_getElem _ _ (by omega)]
      exact partsOf_row_length' bufs _ (List.getElem_mem (by omega))
    exact getD_map_length _ (by omega)

theorem C6_counts_transpose_witness :
    (0 < ([[2, 1], [3, 0]] : List (List Int)).length ∧
        1 < ([[2, 1], [3, 0]] : List (List Int)).length) ∧
      ((recvCountsOf ([[2, 1], [3, 0]] : List (List Int)) 0).getD 1 0
          = (sendCountsOf ([[2, 1], [3, 0]] : List (List Int)) 1).getD 0 0 ∧
        (sendCountsOf ([[2, 1], [3, 0]] : List (List Int)) 1).getD 0 0
          = (((partsOf ([[2, 1], [3, 0]] : List (List Int))).getD 1 []).getD
              0 []).length) :=
  ⟨⟨by decide, by decide⟩,
   C6_counts_transpose [[2, 1], [3, 0]] 0 1 (by decide) (by decide)⟩

/-- C7 counterexample: with P = 1 and input [0] the run returns the local
sort [[0]] but still issues its four collective calls (Gather at line 50,
bcast at line 57, Alltoall at line 70, Alltoallv at line 78), so the
claim's "no collective operation is issued" is false. -/
theorem C7_counterexample :
    (parallelSampleSortTrace ([[0]] : List (List Int))).1 = [[0]] ∧
      (parallelSampleSortTrace ([[0]] : List (List Int))).2 ≠ [] := by
  constructor
  · show parallelSampleSortAll ([[0]] : List (List Int)) = [[0]]
    rw [parallelSampleSortAll_singleton]
    decide
  · decide

/-- C7 (amended): when P = 1, `parallel_sample_sort` run on the whole
input returns exactly the single local ascending sort of that input (the
four collective calls are still issued, with trivial payloads). -/
theorem C7_single_rank_local_sort (l : List α) :
    parallelSampleSortAll [l] = [sortAsc l] :=
  parallelSampleSortAll_singleton l

/-- C8: for every local buffer of length n with 1 ≤ n < P-1 the sampler
completes with every index access in bounds (no error) and still returns
exactly P-1 samples, with some index positions, hence sample values,
repeated. -/
theorem C8_small_buffer_repeats (l : List α) (P : Nat) (h1 : 1 ≤ l.length)
    (h2 : l.length < P - 1) :
    (sampler l P).length = P - 1 ∧
      (∀ i ∈ sampleIndices l.length P, i < l.length) ∧
      ¬ (sampleIndices l.length P).Nodup ∧
      ¬ (sampler l P).Nodup := by
  have hdup : ¬ (sampleIndices l.length P).Nodup := by
    intro hnd
    have hsub : (sampleIndices l.length P).toFinset ⊆
        Finset.range l.length := by
      intro i hi
      rw [List.mem_toFinset] at hi
      rw [Finset.mem_range]
      exact sampleIndices_lt h1 i hi
    have hcard := Finset.card_le_card hsub
    rw [List.toFinset_card_of_nodup hnd, Finset.card_range,
      sampleIndices_length] at hcard
    omega
  refine ⟨sampler_length l P, sampleIndices_lt h1, hdup, ?_⟩
  intro hnd
  exact hdup (hnd.of_map _)

theorem C8_small_buffer_repeats_witness :
    (1 ≤ ([(7 : Int)] : List Int).length ∧ ([(7 : Int)] : List Int).length < 4 - 1) ∧
      ((sampler ([7] : List Int) 4).length = 4 - 1 ∧
        (∀ i ∈ sampleIndices ([(7 : Int)] : List Int).length 4,
          i < ([(7 : Int)] : List Int).length) ∧
        ¬ (sampleIndices ([(7 : Int)] : List Int).length 4).Nodup ∧
        ¬ (sampler ([7] : List Int) 4).Nodup) :=
  ⟨⟨by decide, by decide⟩,
   C8_small_buffer_repeats [7] 4 (by decide) (by decide)⟩

/-- C9: the first pivot produced by the pivot selector is the minimum of
the gathered global sample set (the stride-P selection starts at sorted
index 0), so on every worker with a sorted buffer, bucket 0 contains only
elements ≤ that smallest gathered sample. -/
theorem C9_first_pivot_is_min (S lb : List α) (P : Nat) (hP : 2 ≤ P)
    (hlen : S.length = P * (P - 1)) (hl : List.Sorted (· ≤ ·) lb) :
    ∃ m, (selectPivots S P).head? = some m ∧ m ∈ S ∧ (∀ x ∈ S, m ≤ x) ∧
      ∀ b0, (partitions lb (selectPivots S P)).head? = some b0 →
        ∀ x ∈ b0, x ≤ m := by
  have hpos : 0 < (sortAsc S).length := by
    rw [sortAsc_length, hlen]
    exact Nat.mul_pos (by omega) (by omega)
  obtain ⟨m, rest, hcons⟩ :=
    List.exists_cons_of_ne_nil (List.length_pos.mp hpos)
  refine ⟨m, ?_, ?_, ?_, ?_⟩
  · rw [selectPivots, hcons, strided]
    exact List.head?_cons
  · have hm : m ∈ sortAsc S := by
      rw [hcons]; exact List.mem_cons_self _ _
    exact (sortAsc_perm S).subset hm
  · intro x hxS
    have hx : x ∈ sortAsc S := ((sortAsc_perm S).mem_iff).mpr hxS
    rw [hcons] at hx
    rcases List.mem_cons.mp hx with rfl | hx
    · exact le_refl _
    · have hs := sortAsc_sorted S
      rw [hcons] at hs
      exact (List.sorted_cons.mp hs).1 x hx
  · intro b0 hb0 x hxb
    obtain ⟨ps, hps⟩ : ∃ ps, selectPivots S P = m :: ps :=
      ⟨strided (rest.drop (P - 1)) P, by rw [selectPivots, hcons, strided]⟩
    rw [hps, partitions, partitionLoop, List.head?_cons, Option.some_inj] at hb0
    subst hb0
    have hfil : (lb.drop 0).take (searchsortedRight lb m - 0)
        = lb.filter (fun z => decide (z ≤ m)) := by
      rw [List.drop_zero, Nat.sub_zero, searchsorted_eq_countLe hl,
        take_countLe hl]
    rw [hfil] at hxb
    have := (List.mem_filter.mp hxb).2
    simpa using this

theorem C9_first_pivot_is_min_witness :
    (2 ≤ 2 ∧ ([4, 1] : List Int).length = 2 * (2 - 1) ∧
        List.Sorted (· ≤ ·) ([1, 2, 3] : List Int)) ∧
      (∃ m, (selectPivots ([4, 1] : List Int) 2).head? = some m ∧
        m ∈ ([4, 1] : List Int) ∧ (∀ x ∈ ([4, 1] : List Int), m ≤ x) ∧
        ∀ b0, (partitions ([1, 2, 3] : List Int)
            (selectPivots ([4, 1] : List Int) 2)).head? = some b0 →
          ∀ x ∈ b0, x ≤ m) :=
  ⟨⟨by decide, by decide, by decide⟩,
   C9_first_pivot_is_min [4, 1] [1, 2, 3] 2 (by decide) (by decide) (by decide)⟩

/-- C10: `parallel_sum` returns None on every rank other than 0 and, on
rank 0, the exact sum over all workers of the sums of their local data. -/
theorem C10_parallel_sum {β : Type*} [AddCommMonoid β]
    (bufs : List (List β)) (h : 1 ≤ bufs.length) :
    (parallelSumAll bufs).getD 0 none = some ((bufs.flatten).sum) ∧
      ∀ r, 0 < r → (parallelSumAll bufs).getD r none = none := by
  constructor
  · rw [parallelSumAll, List.getD_eq_getElem _ _ (by simpa using h)]
    simp [List.sum_flatten]
  · intro r hr
    rcases Nat.lt_or_ge r bufs.length with hlt | hge
    · rw [parallelSumAll, List.getD_eq_getElem _ _ (by simpa using hlt)]
      simp
      omega
    · rw [parallelSumAll]
      exact List.getD_eq_default _ _ (by simpa using hge)

theorem C10_parallel_sum_witness :
    (1 ≤ ([[1, 2], [3]] : List (List Int)).length) ∧
      ((parallelSumAll ([[1, 2], [3]] : List (List Int))).getD 0 none
          = some 6 ∧
        ∀ r, 0 < r →
          (parallelSumAll ([[1, 2], [3]] : List (List Int))).getD r none
            = none) := by
  have h := C10_parallel_sum ([[1, 2], [3]] : List (List Int)) (by decide)
  refine ⟨by decide, ?_, h.2⟩
  rw [h.1]
  decide

end MpiSumSort
